import Mathlib

/-!
Shallow embedding of `relation.py` (class `RelationExtractor`): rule-based
extraction of (subject, predicate, object) relation triples from a
dependency-parsed sentence, plus the possessive ("of") rewriting pass.

The parser-facing plumbing (CoreNLP client setup, CLI) is out of scope; the
embedding covers the per-sentence core: `_extract_by_subj_obj`,
`_extract_by_nmod`, `_replace_by_of` and the per-sentence body of `extract`.

Conventions of the embedding:
 - token positions in edges are 1-based `Nat` (as delivered by the parser);
   relation triples carry `Int` indices because the code subtracts 1 with
   Python integer arithmetic;
 - token list access `sentence.token[i - 1]` is embedded as an
   `Option`-valued lookup `tokAt` that is `none` whenever the straightforward
   in-range read `1 ≤ i ≤ n` does not apply, so any out-of-range access
   surfaces as `none` and functions that perform lookups return `Option`;
 - Python `set` results are embedded as `Finset` (iteration order of a set
   is unspecified, only its elements are observable).
-/

namespace RelationExtraction

/-- A token of a parsed sentence: its surface `word` and `pos` tag. -/
structure Token where
  word : String
  pos : String
deriving DecidableEq

/-- A directed dependency edge, 1-based endpoints, labelled by `dep`
(e.g. "nsubj", "nmod:in", "conj:and"). -/
structure DepEdge where
  source : Nat
  target : Nat
  dep : String
deriving DecidableEq

/-- A sentence as consumed by the extractor: tokens plus the
`enhancedPlusPlusDependencies` edge list. -/
structure Sentence where
  token : List Token
  edge : List DepEdge

/-- A relation triple `(subject, predicate token sequence, object)`.
Indices are `Int`: the code produces them by subtracting 1 from 1-based
positions. -/
abbrev RelTriple := Int × List Int × Int

/-- A pre-expansion relation of `_extract_by_nmod`, still 1-based. -/
abbrev PreRel := Nat × List Nat × Nat

/-- `sentence.token[i - 1]` for a 1-based index `i`: `some` exactly when
`1 ≤ i ≤ n`. -/
def tokAt (toks : List Token) (i : Nat) : Option Token :=
  if 1 ≤ i then toks[i - 1]? else none

/-- `sentence.token[i - 1].word` for a 1-based index `i`. -/
def wordAt (toks : List Token) (i : Nat) : Option String :=
  Token.word <$> tokAt toks i

/-- Python's `s.startswith(pre)`, character-based. -/
def strStartsWith (s pre : String) : Bool :=
  s.data.take pre.data.length == pre.data

/-- Python's slice `s[n:]`, character-based. -/
def strDrop (s : String) (n : Nat) : String :=
  ⟨s.data.drop n⟩

/-! ## `_extract_by_subj_obj`: verb relations -/

/-- One argument slot of a predicate: a subject or an object candidate. -/
inductive Arg where
  | subj (s : Nat)
  | obj (o : Nat)
deriving DecidableEq

/-- Classification of one edge in `_extract_by_subj_obj`:
`nsubj`/`acl` yield a (predicate, subject) pair, `dobj`/`acl:relcl` a
(predicate, object) pair, every other label is skipped (`continue`). -/
def classify (e : DepEdge) : Option (Nat × Arg) :=
  if e.dep == "nsubj" then some (e.source, .subj e.target)
  else if e.dep == "acl" then some (e.target, .subj e.source)
  else if e.dep == "dobj" then some (e.source, .obj e.target)
  else if e.dep == "acl:relcl" then some (e.target, .obj e.source)
  else none

/-- The per-predicate accumulator of `pred2insts`: the subject and object
candidate lists. -/
structure Insts where
  subjs : List Nat
  objs : List Nat
deriving DecidableEq

/-- Association-list lookup, embedding `pred2insts[pred]`. -/
def lookupInsts : List (Nat × Insts) → Nat → Option Insts
  | [], _ => none
  | (q, v) :: rest, p => if q = p then some v else lookupInsts rest p

/-- Embeds `if pred not in pred2insts: pred2insts[pred] = {...}` followed by
a mutation of the entry: a missing key is appended (dict insertion order),
an existing entry is updated in place. -/
def updInsts : List (Nat × Insts) → Nat → (Insts → Insts) → List (Nat × Insts)
  | [], p, f => [(p, f ⟨[], []⟩)]
  | (q, v) :: rest, p, f =>
      if q = p then (q, f v) :: rest else (q, v) :: updInsts rest p f

/-- One iteration of the edge loop of `_extract_by_subj_obj`. -/
def stepInsts (m : List (Nat × Insts)) (e : DepEdge) : List (Nat × Insts) :=
  match classify e with
  | none => m
  | some (p, .subj s) => updInsts m p (fun i => { i with subjs := i.subjs ++ [s] })
  | some (p, .obj o) => updInsts m p (fun i => { i with objs := i.objs ++ [o] })

/-- The edge loop of `_extract_by_subj_obj` building `pred2insts`. -/
def buildInsts : List (Nat × Insts) → List DepEdge → List (Nat × Insts)
  | m, [] => m
  | m, e :: es => buildInsts (stepInsts m e) es

/-- `_extract_by_subj_obj`: cross product of subject and object candidates per
predicate, emitted 0-based with a single-token predicate. -/
def extract_by_subj_obj (s : Sentence) : List RelTriple :=
  (buildInsts [] s.edge).flatMap (fun pi =>
    pi.2.subjs.flatMap (fun (sj : Nat) =>
      pi.2.objs.map (fun (ob : Nat) =>
        ((sj : Int) - 1, [(pi.1 : Int) - 1], (ob : Int) - 1))))

/-- The subject candidate an edge contributes to predicate `p`
(`none` when it contributes no subject to `p`). -/
def subjContrib (p : Nat) (e : DepEdge) : Option Nat :=
  match classify e with
  | some (q, .subj sj) => if q = p then some sj else none
  | _ => none

/-- The object candidate an edge contributes to predicate `p`. -/
def objContrib (p : Nat) (e : DepEdge) : Option Nat :=
  match classify e with
  | some (q, .obj ob) => if q = p then some ob else none
  | _ => none

/-- All subject candidates of predicate `p` in edge order. -/
def subjsOf (es : List DepEdge) (p : Nat) : List Nat :=
  es.filterMap (subjContrib p)

/-- All object candidates of predicate `p` in edge order. -/
def objsOf (es : List DepEdge) (p : Nat) : List Nat :=
  es.filterMap (objContrib p)

/-- Whether some edge is classified with predicate `p` (i.e. `p` becomes a
key of `pred2insts`). -/
def hasPredB (es : List DepEdge) (p : Nat) : Bool :=
  es.any (fun e =>
    match classify e with
    | some (q, _) => q == p
    | none => false)

/-- The entry `buildInsts` leaves at key `p`, as a function of the entry the
initial accumulator has there. -/
def buildOut (es : List DepEdge) (p : Nat) : Option Insts → Option Insts
  | some i => some ⟨i.subjs ++ subjsOf es p, i.objs ++ objsOf es p⟩
  | none => if hasPredB es p then some ⟨subjsOf es p, objsOf es p⟩ else none

/-! ## `_extract_by_nmod`: preposition relations -/

/-- The source key of an edge in `dep_idx`: for `acl` the direction is
swapped (`source, target = target, source`). -/
def effSrc (e : DepEdge) : Nat :=
  if e.dep == "acl" then e.target else e.source

/-- The stored dependent of an edge in `dep_idx`, with the `acl` swap. -/
def effTgt (e : DepEdge) : Nat :=
  if e.dep == "acl" then e.source else e.target

/-- `dep_idx[d][k]` of `_extract_by_nmod`: the dependents recorded under key
`k` for label `d`, in edge order. The Python dict has key `k` exactly when
this list is nonempty. -/
def depList (es : List DepEdge) (d : String) (k : Nat) : List Nat :=
  (es.filter (fun e => e.dep == d && effSrc e == k)).map effTgt

/-- The fixed exclusion list `exclude = ['of', 'for']`. -/
def excludeList : List String := ["of", "for"]

/-- Sequential `Option`-valued map over a list (the list comprehension
`[f(x) for x in l]` under the `Option`-valued token lookup): `some` of the
results when every element maps to `some`. -/
def optMapM {a b : Type} (f : a → Option b) : List a → Option (List b)
  | [] => some []
  | x :: xs => do
      let y ← f x
      let ys ← optMapM f xs
      pure (y :: ys)

/-- Python's `'_'.join`: words joined with a single underscore between
consecutive elements. -/
def joinUnderscore : List String → String
  | [] => ""
  | [w] => w
  | w :: ws => w ++ "_" ++ joinUnderscore ws

/-- The loop `for case in dep_idx['case'][edge.target]` searching for a case
token whose word (underscore-joined with its `mwe` dependents when it has
any) equals the `nmod:` suffix; `some (some wordIdc)` on the first match
(`break`), `some none` when the loop ends without a match, `none` when a
token lookup is out of range. -/
def resolveCase (toks : List Token) (es : List DepEdge) (nmod : String) :
    List Nat → Option (Option (List Nat))
  | [] => some none
  | c :: cs => do
      let ct ← tokAt toks c
      let mwes := depList es "mwe" c
      let (wordIdc, word) ←
        if mwes.isEmpty then
          some ([c], ct.word)
        else do
          let ws ← optMapM (wordAt toks) (c :: mwes)
          some (c :: mwes, joinUnderscore ws)
      if word == nmod then
        some (some wordIdc)
      else
        resolveCase toks es nmod cs

/-- The body of the main edge loop of `_extract_by_nmod` for one edge: the
pre-expansion relations that edge contributes (`[]` for every `continue`),
or `none` on an out-of-range token access. -/
def perEdgeNmod (toks : List Token) (es : List DepEdge) (e : DepEdge) :
    Option (List PreRel) :=
  if ¬ strStartsWith e.dep "nmod:" then
    some []
  else
    let nmod := (strDrop e.dep 5)
    if nmod ∈ excludeList then
      some []
    else do
      let tt ← tokAt toks e.target
      if ¬ strStartsWith tt.pos "NN" then
        pure []
      else
        let cases := depList es "case" e.target
        if cases.isEmpty then
          pure []
        else do
          let found ← resolveCase toks es nmod cases
          match found with
          | none => pure []
          | some pr => do
              let st ← tokAt toks e.source
              if strStartsWith st.pos "NN" then
                pure [(e.source, pr, e.target)]
              else
                let acls := depList es "acl" e.source
                if ¬ acls.isEmpty then
                  let pr := if e.source + 1 == pr.headD 0 then e.source :: pr else pr
                  pure (acls.map (fun sj => (sj, pr, e.target)))
                else
                  let nsubjs := depList es "nsubj" e.source
                  if ¬ nsubjs.isEmpty then
                    let pr := if e.source + 1 == pr.headD 0 then e.source :: pr else pr
                    pure (nsubjs.map (fun sj => (sj, pr, e.target)))
                  else
                    pure []

/-- The main edge loop of `_extract_by_nmod`, accumulating the pre-expansion
`relations` list in edge order. -/
def nmodLoop (toks : List Token) (es : List DepEdge) :
    List DepEdge → Option (List PreRel)
  | [] => some []
  | e :: rest => do
      let l ← perEdgeNmod toks es e
      let ls ← nmodLoop toks es rest
      pure (l ++ ls)

/-- The `expanded_relations` pass of `_extract_by_nmod`: each relation is
expanded across `conj:and` on both endpoints, converted to 0-based, and
collected into a set. The Python `list(set(...))` holds the distinct
elements in unspecified order; the embedding returns them deduplicated,
and every claim about this result reads it as a set. -/
def expandRelations (es : List DepEdge) (rels : List PreRel) : List RelTriple :=
  (rels.flatMap (fun r =>
    let subjs := r.1 :: depList es "conj:and" r.1
    let objs := r.2.2 :: depList es "conj:and" r.2.2
    let pr := r.2.1.map (fun (i : Nat) => (i : Int) - 1)
    subjs.flatMap (fun (a : Nat) =>
      objs.map (fun (b : Nat) => ((a : Int) - 1, pr, (b : Int) - 1))))).dedup

/-- `_extract_by_nmod`. -/
def extract_by_nmod (s : Sentence) : Option (List RelTriple) := do
  let pre ← nmodLoop s.token s.edge s.edge
  pure (expandRelations s.edge pre)

/-- Token lookup at a 0-based `Int` position, for observing the final
(0-based) relations: `some` exactly when `0 ≤ i < n`. -/
def tokAt0 (toks : List Token) (i : Int) : Option Token :=
  if 0 ≤ i then toks[i.toNat]? else none

/-- `sentence.token[i].word` at a 0-based position. -/
def wordAt0 (toks : List Token) (i : Int) : Option String :=
  Token.word <$> tokAt0 toks i

/-- The words at a list of 0-based positions, `none` when any position is
out of range. -/
def wordsAt0 (toks : List Token) (l : List Int) : Option (List String) :=
  optMapM (wordAt0 toks) l

/-! ## `_replace_by_of`: possessive rewriting -/

/-- `of_idx[k]` of `_replace_by_of`: the 0-based `nmod:of` dependents of the
0-based key `k`, in edge order; the dict has key `k` exactly when this list
is nonempty. -/
def ofIdx (es : List DepEdge) (k : Int) : List Int :=
  (es.filter (fun e => e.dep == "nmod:of" && ((e.source : Int) - 1 == k))).map
    (fun e => (e.target : Int) - 1)

/-- The substitution list for one endpoint: its `of`-dependents when it is a
key of `of_idx`, otherwise the singleton of the endpoint itself. -/
def substEnds (es : List DepEdge) (x : Int) : List Int :=
  let l := ofIdx es x
  if l.isEmpty then [x] else l

/-- `_replace_by_of`: cross product of the substituted endpoint lists per
relation, predicate unchanged, collected into a set (deduplicated list,
read as a set by every claim about it). -/
def replace_by_of (s : Sentence) (rels : List RelTriple) : List RelTriple :=
  (rels.flatMap (fun r =>
    (substEnds s.edge r.1).flatMap (fun a =>
      (substEnds s.edge r.2.2).map (fun b => (a, r.2.1, b))))).dedup

/-! ## The per-sentence body of `extract` -/

/-- The per-sentence pipeline of `extract`: the verb and preposition
extractors run independently, their results are concatenated and passed
through the possessive rewriter. -/
def extractSentence (s : Sentence) : Option (List RelTriple) := do
  let nm ← extract_by_nmod s
  pure (replace_by_of s (extract_by_subj_obj s ++ nm))

/-- Well-formedness of a parsed sentence: every dependency edge's endpoints
are 1-based positions into the token list. -/
def WellFormed (s : Sentence) : Prop :=
  ∀ e ∈ s.edge, (1 ≤ e.source ∧ e.source ≤ s.token.length) ∧
    (1 ≤ e.target ∧ e.target ≤ s.token.length)

/-- All three index fields of a relation triple are valid 0-based positions
of a token list of length `n`. -/
def RelInRange (n : Nat) (r : RelTriple) : Prop :=
  (0 ≤ r.1 ∧ r.1 < (n : Int)) ∧ (∀ i ∈ r.2.1, 0 ≤ i ∧ i < (n : Int)) ∧
    (0 ≤ r.2.2 ∧ r.2.2 < (n : Int))

/-! ## Lemmas: the `pred2insts` association list -/

lemma lookupInsts_updInsts_self (m : List (Nat × Insts)) (p : Nat)
    (f : Insts → Insts) :
    lookupInsts (updInsts m p f) p = some (f ((lookupInsts m p).getD ⟨[], []⟩)) := by
  induction m with
  | nil => simp [updInsts, lookupInsts]
  | cons hd tl ih =>
    obtain ⟨q, v⟩ := hd
    by_cases hq : q = p
    · simp [updInsts, lookupInsts, hq]
    · simp [updInsts, lookupInsts, hq, ih]

lemma lookupInsts_updInsts_ne (m : List (Nat × Insts)) (p q : Nat)
    (f : Insts → Insts) (hpq : q ≠ p) :
    lookupInsts (updInsts m p f) q = lookupInsts m q := by
  induction m with
  | nil =>
    simp only [updInsts, lookupInsts]
    simp [Ne.symm hpq]
  | cons hd tl ih =>
    obtain ⟨k, v⟩ := hd
    by_cases hk : k = p
    · subst hk
      simp [updInsts, lookupInsts, Ne.symm hpq]
    · simp [updInsts, lookupInsts, hk, ih]

lemma lookupInsts_buildInsts (es : List DepEdge) (m : List (Nat × Insts))
    (p : Nat) :
    lookupInsts (buildInsts m es) p = buildOut es p (lookupInsts m p) := by
  induction es generalizing m with
  | nil =>
    cases h : lookupInsts m p <;>
      simp [buildInsts, buildOut, subjsOf, objsOf, hasPredB, h]
  | cons e es ih =>
    show lookupInsts (buildInsts (stepInsts m e) es) p = _
    rw [ih]
    cases hc : classify e with
    | none =>
      have hs : stepInsts m e = m := by simp [stepInsts, hc]
      rw [hs]
      cases h : lookupInsts m p <;>
        simp [buildOut, subjsOf, objsOf, hasPredB, List.filterMap_cons,
          subjContrib, objContrib, hc, h]
    | some pa =>
      obtain ⟨q, a⟩ := pa
      by_cases hq : q = p
      · subst hq
        cases a with
        | subj sj =>
          have hs : stepInsts m e =
              updInsts m q (fun i => { i with subjs := i.subjs ++ [sj] }) := by
            simp [stepInsts, hc]
          rw [hs, lookupInsts_updInsts_self]
          cases h : lookupInsts m q <;>
            simp [buildOut, subjsOf, objsOf, hasPredB, List.filterMap_cons,
              subjContrib, objContrib, hc, h]
        | obj ob =>
          have hs : stepInsts m e =
              updInsts m q (fun i => { i with objs := i.objs ++ [ob] }) := by
            simp [stepInsts, hc]
          rw [hs, lookupInsts_updInsts_self]
          cases h : lookupInsts m q <;>
            simp [buildOut, subjsOf, objsOf, hasPredB, List.filterMap_cons,
              subjContrib, objContrib, hc, h]
      · cases a with
        | subj sj =>
          have hs : lookupInsts (stepInsts m e) p = lookupInsts m p := by
            simp [stepInsts, hc, lookupInsts_updInsts_ne _ _ _ _ (Ne.symm hq)]
          rw [hs]
          cases h : lookupInsts m p <;>
            simp [buildOut, subjsOf, objsOf, hasPredB, List.filterMap_cons,
              subjContrib, objContrib, hc, hq, h]
        | obj ob =>
          have hs : lookupInsts (stepInsts m e) p = lookupInsts m p := by
            simp [stepInsts, hc, lookupInsts_updInsts_ne _ _ _ _ (Ne.symm hq)]
          rw [hs]
          cases h : lookupInsts m p <;>
            simp [buildOut, subjsOf, objsOf, hasPredB, List.filterMap_cons,
              subjContrib, objContrib, hc, hq, h]

lemma keys_updInsts (m : List (Nat × Insts)) (p : Nat) (f : Insts → Insts) :
    (updInsts m p f).map Prod.fst =
      if p ∈ m.map Prod.fst then m.map Prod.fst else m.map Prod.fst ++ [p] := by
  induction m with
  | nil => simp [updInsts]
  | cons hd tl ih =>
    obtain ⟨k, v⟩ := hd
    by_cases hk : k = p
    · simp [updInsts, hk]
    · simp only [updInsts, if_neg hk, List.map_cons, ih]
      by_cases hp : p ∈ tl.map Prod.fst <;>
        simp [hp, Ne.symm hk]

lemma nodup_keys_updInsts (m : List (Nat × Insts)) (p : Nat) (f : Insts → Insts)
    (h : (m.map Prod.fst).Nodup) : ((updInsts m p f).map Prod.fst).Nodup := by
  rw [keys_updInsts]
  by_cases hp : p ∈ m.map Prod.fst
  · simpa [hp] using h
  · simp only [if_neg hp]
    refine List.Nodup.append h (List.nodup_singleton p) ?_
    intro x hx hxs
    rw [List.mem_singleton] at hxs
    exact hp (hxs ▸ hx)

lemma nodup_keys_buildInsts (es : List DepEdge) (m : List (Nat × Insts))
    (h : (m.map Prod.fst).Nodup) : ((buildInsts m es).map Prod.fst).Nodup := by
  induction es generalizing m with
  | nil => exact h
  | cons e es ih =>
    show ((buildInsts (stepInsts m e) es).map Prod.fst).Nodup
    apply ih
    cases hc : classify e with
    | none => simpa [stepInsts, hc] using h
    | some pa =>
      obtain ⟨q, a⟩ := pa
      cases a with
      | subj sj => simpa [stepInsts, hc] using nodup_keys_updInsts m q _ h
      | obj ob => simpa [stepInsts, hc] using nodup_keys_updInsts m q _ h

lemma lookupInsts_eq_some_of_mem (m : List (Nat × Insts)) (p : Nat) (i : Insts)
    (hnd : (m.map Prod.fst).Nodup) (hm : (p, i) ∈ m) :
    lookupInsts m p = some i := by
  induction m with
  | nil => simp at hm
  | cons hd tl ih =>
    obtain ⟨k, v⟩ := hd
    rcases List.mem_cons.mp hm with heq | htl
    · rw [Prod.mk.injEq] at heq
      obtain ⟨h1, h2⟩ := heq
      subst h1; subst h2
      simp [lookupInsts]
    · have hk : k ≠ p := by
        intro hkp
        subst hkp
        have : k ∈ tl.map Prod.fst := List.mem_map.mpr ⟨(k, i), htl, rfl⟩
        simp [this] at hnd
      simp only [lookupInsts, if_neg hk]
      exact ih (by simpa using hnd.of_cons) htl

lemma mem_of_lookupInsts_eq_some (m : List (Nat × Insts)) (p : Nat) (i : Insts)
    (h : lookupInsts m p = some i) : (p, i) ∈ m := by
  induction m with
  | nil => simp [lookupInsts] at h
  | cons hd tl ih =>
    obtain ⟨k, v⟩ := hd
    by_cases hk : k = p
    · subst hk
      simp [lookupInsts] at h
      simp [h]
    · simp only [lookupInsts, if_neg hk] at h
      exact List.mem_cons_of_mem _ (ih h)

lemma subjContrib_eq_some (p : Nat) (e : DepEdge) (sj : Nat) :
    subjContrib p e = some sj ↔
      (e.dep = "nsubj" ∧ e.source = p ∧ e.target = sj) ∨
      (e.dep = "acl" ∧ e.target = p ∧ e.source = sj) := by
  unfold subjContrib classify
  by_cases h1 : e.dep = "nsubj" <;> by_cases h2 : e.dep = "acl" <;>
    by_cases h3 : e.dep = "dobj" <;> by_cases h4 : e.dep = "acl:relcl" <;>
      simp_all

lemma objContrib_eq_some (p : Nat) (e : DepEdge) (ob : Nat) :
    objContrib p e = some ob ↔
      (e.dep = "dobj" ∧ e.source = p ∧ e.target = ob) ∨
      (e.dep = "acl:relcl" ∧ e.target = p ∧ e.source = ob) := by
  unfold objContrib classify
  by_cases h1 : e.dep = "nsubj" <;> by_cases h2 : e.dep = "acl" <;>
    by_cases h3 : e.dep = "dobj" <;> by_cases h4 : e.dep = "acl:relcl" <;>
      simp_all

lemma mem_subjsOf (es : List DepEdge) (p sj : Nat) :
    sj ∈ subjsOf es p ↔ ∃ e ∈ es, subjContrib p e = some sj := by
  simp [subjsOf, List.mem_filterMap]

lemma mem_objsOf (es : List DepEdge) (p ob : Nat) :
    ob ∈ objsOf es p ↔ ∃ e ∈ es, objContrib p e = some ob := by
  simp [objsOf, List.mem_filterMap]

lemma hasPredB_true_of_contrib (es : List DepEdge) (p : Nat) (e : DepEdge)
    (he : e ∈ es) (h : subjContrib p e ≠ none ∨ objContrib p e ≠ none) :
    hasPredB es p = true := by
  unfold hasPredB
  rw [List.any_eq_true]
  refine ⟨e, he, ?_⟩
  unfold subjContrib objContrib at h
  cases hc : classify e with
  | none => simp [hc] at h
  | some pa =>
    obtain ⟨q, a⟩ := pa
    have hq : q = p := by
      cases a <;> rw [hc] at h <;> simp at h <;>
        · by_cases hqp : q = p
          · exact hqp
          · simp [hqp] at h
    simp [hq]

lemma mem_extract_by_subj_obj (s : Sentence) (r : RelTriple) :
    r ∈ extract_by_subj_obj s ↔
      ∃ pi ∈ buildInsts [] s.edge, ∃ sj : Nat, sj ∈ pi.2.subjs ∧
        ∃ ob : Nat, ob ∈ pi.2.objs ∧
          r = ((sj : Int) - 1, [(pi.1 : Int) - 1], (ob : Int) - 1) := by
  unfold extract_by_subj_obj
  rw [List.mem_flatMap]
  constructor
  · rintro ⟨⟨p, i⟩, hpi, hr⟩
    rw [List.mem_flatMap] at hr
    obtain ⟨sj, hsj, hr⟩ := hr
    rw [List.mem_map] at hr
    obtain ⟨ob, hob, rfl⟩ := hr
    exact ⟨⟨p, i⟩, hpi, sj, hsj, ob, hob, rfl⟩
  · rintro ⟨⟨p, i⟩, hpi, sj, hsj, ob, hob, rfl⟩
    refine ⟨⟨p, i⟩, hpi, ?_⟩
    rw [List.mem_flatMap]
    exact ⟨sj, hsj, List.mem_map.mpr ⟨ob, hob, rfl⟩⟩

lemma extract_by_subj_obj_char (s : Sentence) (r : RelTriple) :
    r ∈ extract_by_subj_obj s ↔
      ∃ p sj ob : Nat,
        ((∃ e ∈ s.edge, e.dep = "nsubj" ∧ e.source = p ∧ e.target = sj) ∨
         (∃ e ∈ s.edge, e.dep = "acl" ∧ e.target = p ∧ e.source = sj)) ∧
        ((∃ e ∈ s.edge, e.dep = "dobj" ∧ e.source = p ∧ e.target = ob) ∨
         (∃ e ∈ s.edge, e.dep = "acl:relcl" ∧ e.target = p ∧ e.source = ob)) ∧
        r = ((sj : Int) - 1, [(p : Int) - 1], (ob : Int) - 1) := by
  rw [mem_extract_by_subj_obj]
  constructor
  · rintro ⟨⟨p, i⟩, hpi, sj, hsj, ob, hob, rfl⟩
    have hl := lookupInsts_eq_some_of_mem _ _ _
      (nodup_keys_buildInsts s.edge [] (by simp)) hpi
    rw [lookupInsts_buildInsts] at hl
    simp only [lookupInsts, buildOut] at hl
    by_cases hhp : hasPredB s.edge p = true
    · rw [if_pos hhp] at hl
      obtain rfl : i = ⟨subjsOf s.edge p, objsOf s.edge p⟩ :=
        (Option.some.injEq .. ▸ hl).symm
      obtain ⟨e1, he1, hc1⟩ := (mem_subjsOf _ _ _).mp hsj
      obtain ⟨e2, he2, hc2⟩ := (mem_objsOf _ _ _).mp hob
      refine ⟨p, sj, ob, ?_, ?_, rfl⟩
      · rcases (subjContrib_eq_some _ _ _).mp hc1 with h | h
        · exact Or.inl ⟨e1, he1, h⟩
        · exact Or.inr ⟨e1, he1, h⟩
      · rcases (objContrib_eq_some _ _ _).mp hc2 with h | h
        · exact Or.inl ⟨e2, he2, h⟩
        · exact Or.inr ⟨e2, he2, h⟩
    · rw [if_neg hhp] at hl
      cases hl
  · rintro ⟨p, sj, ob, hs, ho, rfl⟩
    have hc1 : ∃ e ∈ s.edge, subjContrib p e = some sj := by
      rcases hs with ⟨e, he, h⟩ | ⟨e, he, h⟩
      · exact ⟨e, he, (subjContrib_eq_some _ _ _).mpr (Or.inl h)⟩
      · exact ⟨e, he, (subjContrib_eq_some _ _ _).mpr (Or.inr h)⟩
    have hc2 : ∃ e ∈ s.edge, objContrib p e = some ob := by
      rcases ho with ⟨e, he, h⟩ | ⟨e, he, h⟩
      · exact ⟨e, he, (objContrib_eq_some _ _ _).mpr (Or.inl h)⟩
      · exact ⟨e, he, (objContrib_eq_some _ _ _).mpr (Or.inr h)⟩
    obtain ⟨e1, he1, h1⟩ := hc1
    have hhp : hasPredB s.edge p = true :=
      hasPredB_true_of_contrib s.edge p e1 he1 (Or.inl (by simp [h1]))
    have hl : lookupInsts (buildInsts [] s.edge) p =
        some ⟨subjsOf s.edge p, objsOf s.edge p⟩ := by
      rw [lookupInsts_buildInsts]
      simp [lookupInsts, buildOut, hhp]
    refine ⟨(p, ⟨subjsOf s.edge p, objsOf s.edge p⟩),
      mem_of_lookupInsts_eq_some _ _ _ hl, sj, ?_, ob, ?_, rfl⟩
    · exact (mem_subjsOf _ _ _).mpr ⟨e1, he1, h1⟩
    · exact (mem_objsOf _ _ _).mpr hc2

/-- Claim C1: the Verb Relation Extractor's output is, as a set, exactly the
cross product of the subject candidates (targets of `nsubj` edges with
source `p`, sources of `acl` edges with target `p`) and the object
candidates (targets of `dobj` edges with source `p`, sources of
`acl:relcl` edges with target `p`) of each predicate token `p`, emitted
0-based with a predicate sequence of length exactly 1; a predicate with
only subjects or only objects contributes nothing. -/
theorem verb_extractor_cross_product (s : Sentence) (r : RelTriple) :
    r ∈ extract_by_subj_obj s ↔
      ∃ p sj ob : Nat,
        ((∃ e ∈ s.edge, e.dep = "nsubj" ∧ e.source = p ∧ e.target = sj) ∨
         (∃ e ∈ s.edge, e.dep = "acl" ∧ e.target = p ∧ e.source = sj)) ∧
        ((∃ e ∈ s.edge, e.dep = "dobj" ∧ e.source = p ∧ e.target = ob) ∨
         (∃ e ∈ s.edge, e.dep = "acl:relcl" ∧ e.target = p ∧ e.source = ob)) ∧
        r = ((sj : Int) - 1, [(p : Int) - 1], (ob : Int) - 1) :=
  extract_by_subj_obj_char s r

/-! ## Lemmas: `_replace_by_of` -/

lemma mem_ofIdx (es : List DepEdge) (k y : Int) :
    y ∈ ofIdx es k ↔
      ∃ e ∈ es, e.dep = "nmod:of" ∧ (e.source : Int) - 1 = k ∧
        y = (e.target : Int) - 1 := by
  unfold ofIdx
  simp only [List.mem_map, List.mem_filter, Bool.and_eq_true, beq_iff_eq]
  constructor
  · rintro ⟨e, ⟨he, hd, hk⟩, rfl⟩
    exact ⟨e, he, hd, hk, rfl⟩
  · rintro ⟨e, he, hd, hk, rfl⟩
    exact ⟨e, ⟨he, hd, hk⟩, rfl⟩

lemma ofIdx_eq_nil_iff (es : List DepEdge) (k : Int) :
    ofIdx es k = [] ↔
      ¬ ∃ e ∈ es, e.dep = "nmod:of" ∧ (e.source : Int) - 1 = k := by
  rw [List.eq_nil_iff_forall_not_mem]
  constructor
  · rintro h ⟨e, he, hd, hk⟩
    exact h ((e.target : Int) - 1) ((mem_ofIdx es k _).mpr ⟨e, he, hd, hk, rfl⟩)
  · intro h y hy
    obtain ⟨e, he, hd, hk, _⟩ := (mem_ofIdx es k y).mp hy
    exact h ⟨e, he, hd, hk⟩

lemma mem_substEnds_iff (es : List DepEdge) (x a : Int) :
    a ∈ substEnds es x ↔
      ((∃ e ∈ es, e.dep = "nmod:of" ∧ (e.source : Int) - 1 = x ∧
          a = (e.target : Int) - 1) ∨
       ((¬ ∃ e ∈ es, e.dep = "nmod:of" ∧ (e.source : Int) - 1 = x) ∧ a = x)) := by
  unfold substEnds
  by_cases h : (ofIdx es x).isEmpty
  · rw [List.isEmpty_iff] at h
    have hk := (ofIdx_eq_nil_iff es x).mp h
    simp only [h, List.isEmpty_nil, if_pos]
    simp only [List.mem_singleton]
    constructor
    · intro ha
      exact Or.inr ⟨hk, ha⟩
    · rintro (⟨e, he, hd, hx, _⟩ | ⟨_, ha⟩)
      · exact absurd ⟨e, he, hd, hx⟩ hk
      · exact ha
  · have h' : ¬ ofIdx es x = [] := by
      intro hn
      rw [hn] at h
      exact h List.isEmpty_nil
    have hk : ∃ e ∈ es, e.dep = "nmod:of" ∧ (e.source : Int) - 1 = x := by
      by_contra hc
      exact h' ((ofIdx_eq_nil_iff es x).mpr hc)
    simp only [if_neg h]
    rw [mem_ofIdx]
    constructor
    · intro ha
      exact Or.inl ha
    · rintro (ha | ⟨hna, _⟩)
      · exact ha
      · exact absurd hk hna

lemma substEnds_ne_nil (es : List DepEdge) (x : Int) : substEnds es x ≠ [] := by
  unfold substEnds
  by_cases h : (ofIdx es x).isEmpty
  · simp [h]
  · simp only [List.isEmpty_eq_true] at h
    simp [h]

lemma mem_replace_by_of (s : Sentence) (rels : List RelTriple) (r : RelTriple) :
    r ∈ replace_by_of s rels ↔
      ∃ r0 ∈ rels, ∃ a ∈ substEnds s.edge r0.1, ∃ b ∈ substEnds s.edge r0.2.2,
        r = (a, r0.2.1, b) := by
  unfold replace_by_of
  rw [List.mem_dedup, List.mem_flatMap]
  constructor
  · rintro ⟨r0, h0, hr⟩
    rw [List.mem_flatMap] at hr
    obtain ⟨a, ha, hr⟩ := hr
    rw [List.mem_map] at hr
    obtain ⟨b, hb, rfl⟩ := hr
    exact ⟨r0, h0, a, ha, b, hb, rfl⟩
  · rintro ⟨r0, h0, a, ha, b, hb, rfl⟩
    refine ⟨r0, h0, ?_⟩
    rw [List.mem_flatMap]
    exact ⟨a, ha, List.mem_map.mpr ⟨b, hb, rfl⟩⟩

/-- Claim C2: the Possessive Rewriter's output is, as a set, exactly the
triples `(a, pred, b)` where, for some input relation `(sj, pred, ob)`,
`a` ranges over the 0-based `nmod:of` dependents of `sj` when `sj` is a key
of the 0-based `nmod:of` index and over `{sj}` otherwise, and `b` likewise
independently for `ob`; each endpoint is substituted at most once and the
predicate sequence is kept from the input relation. -/
theorem replace_by_of_characterization (s : Sentence) (rels : List RelTriple)
    (r : RelTriple) :
    r ∈ replace_by_of s rels ↔
      ∃ r0 ∈ rels, ∃ a b : Int,
        ((∃ e ∈ s.edge, e.dep = "nmod:of" ∧ (e.source : Int) - 1 = r0.1 ∧
            a = (e.target : Int) - 1) ∨
         ((¬ ∃ e ∈ s.edge, e.dep = "nmod:of" ∧ (e.source : Int) - 1 = r0.1) ∧
            a = r0.1)) ∧
        ((∃ e ∈ s.edge, e.dep = "nmod:of" ∧ (e.source : Int) - 1 = r0.2.2 ∧
            b = (e.target : Int) - 1) ∨
         ((¬ ∃ e ∈ s.edge, e.dep = "nmod:of" ∧ (e.source : Int) - 1 = r0.2.2) ∧
            b = r0.2.2)) ∧
        r = (a, r0.2.1, b) := by
  rw [mem_replace_by_of]
  constructor
  · rintro ⟨r0, h0, a, ha, b, hb, rfl⟩
    exact ⟨r0, h0, a, b, (mem_substEnds_iff _ _ _).mp ha,
      (mem_substEnds_iff _ _ _).mp hb, rfl⟩
  · rintro ⟨r0, h0, a, b, ha, hb, rfl⟩
    exact ⟨r0, h0, a, (mem_substEnds_iff _ _ _).mpr ha, b,
      (mem_substEnds_iff _ _ _).mpr hb, rfl⟩

/-- Claim C9: the Possessive Rewriter never discards a relation: every input
relation contributes at least one output relation with the same predicate
sequence, because the substitution list of an endpoint is never empty. -/
theorem replace_by_of_never_discards (s : Sentence) (rels : List RelTriple)
    (r0 : RelTriple) (h0 : r0 ∈ rels) :
    ∃ a b : Int, (a, r0.2.1, b) ∈ replace_by_of s rels := by
  obtain ⟨a, ha⟩ := List.exists_mem_of_ne_nil _ (substEnds_ne_nil s.edge r0.1)
  obtain ⟨b, hb⟩ := List.exists_mem_of_ne_nil _ (substEnds_ne_nil s.edge r0.2.2)
  exact ⟨a, b, (mem_replace_by_of s rels _).mpr ⟨r0, h0, a, ha, b, hb, rfl⟩⟩

/-- Witness for C9 on a concrete sentence and relation list. -/
theorem replace_by_of_never_discards_witness :
    ∃ a b : Int,
      (a, ([4] : List Int), b) ∈
        replace_by_of
          ⟨[], [⟨5, 2, "nsubj"⟩, ⟨2, 4, "nmod:of"⟩, ⟨4, 3, "case"⟩]⟩
          [((1 : Int), [4], 0)] :=
  replace_by_of_never_discards _ _ ((1 : Int), [4], 0) (by decide)

/-- Counterexample to claim C7 as stated: with chained `nmod:of` edges
`1 → 2` and `2 → 3`, rewriting the relation `(0, [0], 0)` once gives
`{(1, [0], 1)}` and rewriting a second time gives `{(2, [0], 2)}`, a
different set. -/
theorem replace_by_of_not_idempotent_cx :
    (replace_by_of ⟨[], [⟨1, 2, "nmod:of"⟩, ⟨2, 3, "nmod:of"⟩]⟩
        (replace_by_of ⟨[], [⟨1, 2, "nmod:of"⟩, ⟨2, 3, "nmod:of"⟩]⟩
          [((0 : Int), [0], 0)])).toFinset ≠
      (replace_by_of ⟨[], [⟨1, 2, "nmod:of"⟩, ⟨2, 3, "nmod:of"⟩]⟩
        [((0 : Int), [0], 0)]).toFinset := by
  decide

lemma ofIdx_substEnds_eq_nil (es : List DepEdge)
    (h : ∀ e ∈ es, e.dep = "nmod:of" → ofIdx es ((e.target : Int) - 1) = [])
    (x a : Int) (ha : a ∈ substEnds es x) : ofIdx es a = [] := by
  rcases (mem_substEnds_iff es x a).mp ha with ⟨e, he, hd, _, rfl⟩ | ⟨hn, rfl⟩
  · exact h e he hd
  · exact (ofIdx_eq_nil_iff es a).mpr hn

lemma substEnds_of_ofIdx_nil (es : List DepEdge) (a : Int)
    (h : ofIdx es a = []) : substEnds es a = [a] := by
  unfold substEnds
  simp [h]

/-- Claim C7 amended: the Possessive Rewriter is idempotent on its own
output provided no `nmod:of` dependent is itself an `nmod:of` governor
(no chained "of" edges); with a chain, a second pass substitutes again
(see the counterexample). -/
theorem replace_by_of_idempotent_no_chain (s : Sentence)
    (h : ∀ e ∈ s.edge, e.dep = "nmod:of" →
      ofIdx s.edge ((e.target : Int) - 1) = [])
    (rels : List RelTriple) :
    (replace_by_of s (replace_by_of s rels)).toFinset =
      (replace_by_of s rels).toFinset := by
  ext r
  simp only [List.mem_toFinset]
  rw [mem_replace_by_of]
  constructor
  · rintro ⟨r0, h0, a, ha, b, hb, rfl⟩
    obtain ⟨r1, h1, a1, ha1, b1, hb1, rfl⟩ := (mem_replace_by_of s rels r0).mp h0
    rw [substEnds_of_ofIdx_nil s.edge a1
        (ofIdx_substEnds_eq_nil s.edge h r1.1 a1 ha1), List.mem_singleton] at ha
    rw [substEnds_of_ofIdx_nil s.edge b1
        (ofIdx_substEnds_eq_nil s.edge h r1.2.2 b1 hb1), List.mem_singleton] at hb
    subst ha; subst hb
    exact h0
  · intro hr
    obtain ⟨r1, h1, a1, ha1, b1, hb1, rfl⟩ := (mem_replace_by_of s rels r).mp hr
    refine ⟨(a1, r1.2.1, b1), hr, a1, ?_, b1, ?_, rfl⟩
    · rw [substEnds_of_ofIdx_nil s.edge a1
        (ofIdx_substEnds_eq_nil s.edge h r1.1 a1 ha1)]
      exact List.mem_singleton.mpr rfl
    · rw [substEnds_of_ofIdx_nil s.edge b1
        (ofIdx_substEnds_eq_nil s.edge h r1.2.2 b1 hb1)]
      exact List.mem_singleton.mpr rfl

/-- Witness for the amended C7 on a concrete unchained sentence. -/
theorem replace_by_of_idempotent_no_chain_witness :
    (replace_by_of ⟨[], [⟨2, 4, "nmod:of"⟩]⟩
        (replace_by_of ⟨[], [⟨2, 4, "nmod:of"⟩]⟩ [((1 : Int), [4], 0)])).toFinset =
      (replace_by_of ⟨[], [⟨2, 4, "nmod:of"⟩]⟩ [((1 : Int), [4], 0)]).toFinset :=
  replace_by_of_idempotent_no_chain ⟨[], [⟨2, 4, "nmod:of"⟩]⟩ (by decide)
    [((1 : Int), [4], 0)]

/-! ## Lemmas: `_extract_by_nmod` -/

lemma depList_acl (es : List DepEdge) (k : Nat) :
    depList es "acl" k =
      (es.filter (fun ed => ed.dep == "acl" && ed.target == k)).map
        (fun ed => ed.source) := by
  unfold depList
  have hf : es.filter (fun e => e.dep == "acl" && effSrc e == k) =
      es.filter (fun ed => ed.dep == "acl" && ed.target == k) := by
    apply List.filter_congr
    intro e _
    by_cases hd : e.dep = "acl"
    · simp [effSrc, hd]
    · have hb : (e.dep == "acl") = false := by simp [hd]
      simp [hb]
  rw [hf]
  apply List.map_congr_left
  intro e he
  rw [List.mem_filter] at he
  have hd : e.dep = "acl" := by
    have := he.2
    simp only [Bool.and_eq_true, beq_iff_eq] at this
    exact this.1
  simp [effTgt, hd]

lemma depList_ne_acl (es : List DepEdge) (d : String) (k : Nat)
    (hd : d ≠ "acl") :
    depList es d k =
      (es.filter (fun ed => ed.dep == d && ed.source == k)).map
        (fun ed => ed.target) := by
  unfold depList
  have hf : es.filter (fun e => e.dep == d && effSrc e == k) =
      es.filter (fun ed => ed.dep == d && ed.source == k) := by
    apply List.filter_congr
    intro e _
    by_cases hde : e.dep = d
    · simp [effSrc, hde, hd]
    · have hb : (e.dep == d) = false := by simp [hde]
      simp [hb]
  rw [hf]
  apply List.map_congr_left
  intro e he
  rw [List.mem_filter] at he
  have hde : e.dep = d := by
    have := he.2
    simp only [Bool.and_eq_true, beq_iff_eq] at this
    exact this.1
  have hne : ¬ e.dep = "acl" := by rw [hde]; exact hd
  have hb : (e.dep == "acl") = false := by simp [hne]
  simp [effTgt, hb]

lemma mem_depList (es : List DepEdge) (d : String) (k x : Nat) :
    x ∈ depList es d k ↔
      ∃ e ∈ es, e.dep = d ∧ effSrc e = k ∧ x = effTgt e := by
  unfold depList
  simp only [List.mem_map, List.mem_filter, Bool.and_eq_true, beq_iff_eq]
  constructor
  · rintro ⟨e, ⟨he, hd, hk⟩, rfl⟩
    exact ⟨e, he, hd, hk, rfl⟩
  · rintro ⟨e, he, hd, hk, rfl⟩
    exact ⟨e, ⟨he, hd, hk⟩, rfl⟩

lemma mem_nmodLoop (toks : List Token) (es : List DepEdge) :
    ∀ (l : List DepEdge) (pre : List PreRel),
      nmodLoop toks es l = some pre →
      ∀ x : PreRel, (x ∈ pre ↔
        ∃ e ∈ l, ∃ le, perEdgeNmod toks es e = some le ∧ x ∈ le)
  | [], pre, h, x => by
    simp only [nmodLoop, Option.some.injEq] at h
    subst h
    simp
  | e :: rest, pre, h, x => by
    simp only [nmodLoop, Option.bind_eq_bind] at h
    cases he : perEdgeNmod toks es e with
    | none => rw [he] at h; cases h
    | some le =>
      rw [he] at h
      simp only [Option.some_bind] at h
      cases hrest : nmodLoop toks es rest with
      | none => rw [hrest] at h; cases h
      | some ls =>
        rw [hrest] at h
        simp only [Option.some_bind, Option.pure_def, Option.some.injEq] at h
        subst h
        rw [List.mem_append]
        constructor
        · rintro (hx | hx)
          · exact ⟨e, List.mem_cons_self e rest, le, he, hx⟩
          · obtain ⟨e', he', le', hle', hx'⟩ :=
              (mem_nmodLoop toks es rest ls hrest x).mp hx
            exact ⟨e', List.mem_cons_of_mem e he', le', hle', hx'⟩
        · rintro ⟨e', he', le', hle', hx'⟩
          rcases List.mem_cons.mp he' with rfl | he'
          · rw [he] at hle'
            cases hle'
            exact Or.inl hx'
          · exact Or.inr ((mem_nmodLoop toks es rest ls hrest x).mpr
              ⟨e', he', le', hle', hx'⟩)

lemma isSome_nmodLoop (toks : List Token) (es : List DepEdge) :
    ∀ l : List DepEdge,
      (∀ e ∈ l, (perEdgeNmod toks es e).isSome) →
      (nmodLoop toks es l).isSome
  | [], _ => by simp [nmodLoop]
  | e :: rest, h => by
    have he := h e (List.mem_cons_self e rest)
    obtain ⟨le, hle⟩ := Option.isSome_iff_exists.mp he
    have hrest := isSome_nmodLoop toks es rest
      (fun e' he' => h e' (List.mem_cons_of_mem e he'))
    obtain ⟨ls, hls⟩ := Option.isSome_iff_exists.mp hrest
    simp [nmodLoop, hle, hls]

lemma mem_expandRelations (es : List DepEdge) (rels : List PreRel)
    (r : RelTriple) :
    r ∈ expandRelations es rels ↔
      ∃ r0 ∈ rels, ∃ a : Nat, (a = r0.1 ∨ a ∈ depList es "conj:and" r0.1) ∧
        ∃ b : Nat, (b = r0.2.2 ∨ b ∈ depList es "conj:and" r0.2.2) ∧
          r = ((a : Int) - 1, r0.2.1.map (fun (i : Nat) => (i : Int) - 1),
               (b : Int) - 1) := by
  unfold expandRelations
  rw [List.mem_dedup, List.mem_flatMap]
  constructor
  · rintro ⟨r0, h0, hr⟩
    rw [List.mem_flatMap] at hr
    obtain ⟨a, ha, hr⟩ := hr
    rw [List.mem_map] at hr
    obtain ⟨b, hb, rfl⟩ := hr
    rw [List.mem_cons] at ha hb
    exact ⟨r0, h0, a, ha, b, hb, rfl⟩
  · rintro ⟨r0, h0, a, ha, b, hb, rfl⟩
    refine ⟨r0, h0, ?_⟩
    rw [List.mem_flatMap]
    refine ⟨a, List.mem_cons.mpr ha, ?_⟩
    exact List.mem_map.mpr ⟨b, List.mem_cons.mpr hb, rfl⟩

lemma extract_by_nmod_eq_some (s : Sentence) (out : List RelTriple) :
    extract_by_nmod s = some out ↔
      ∃ pre, nmodLoop s.token s.edge s.edge = some pre ∧
        out = expandRelations s.edge pre := by
  unfold extract_by_nmod
  cases h : nmodLoop s.token s.edge s.edge with
  | none => simp [h]
  | some pre =>
    simp only [h, Option.bind_eq_bind, Option.some_bind, Option.pure_def,
      Option.some.injEq]
    constructor
    · rintro rfl
      exact ⟨pre, rfl, rfl⟩
    · rintro ⟨pre', hpre', rfl⟩
      cases hpre'
      rfl

lemma joinUnderscore_singleton (w : String) : joinUnderscore [w] = w := rfl

lemma joinUnderscore_cons (w : String) (ws : List String) (h : ws ≠ []) :
    joinUnderscore (w :: ws) = w ++ "_" ++ joinUnderscore ws := by
  cases ws with
  | nil => exact absurd rfl h
  | cons w' ws' => rfl

lemma append_underscore_ne (u v w : String)
    (hw : ('_' : Char) ∉ w.data) : u ++ "_" ++ v ≠ w := by
  intro h
  have hd : (u ++ "_" ++ v).data = w.data := by rw [h]
  rw [String.data_append, String.data_append] at hd
  apply hw
  rw [← hd]
  apply List.mem_append_left
  apply List.mem_append_right
  simp [String.data]

lemma mapM_option_isSome {α β : Type} (f : α → Option β) :
    ∀ l : List α, (∀ x ∈ l, (f x).isSome) → (optMapM f l).isSome
  | [], _ => by simp [optMapM]
  | x :: xs, h => by
    obtain ⟨y, hy⟩ := Option.isSome_iff_exists.mp (h x (List.mem_cons_self x xs))
    obtain ⟨ys, hys⟩ := Option.isSome_iff_exists.mp
      (mapM_option_isSome f xs (fun a ha => h a (List.mem_cons_of_mem x ha)))
    simp [optMapM, hy, hys]

lemma optMapM_cons_eq_some {α β : Type} (f : α → Option β) (x : α) (xs : List α)
    (r : List β) :
    optMapM f (x :: xs) = some r ↔
      ∃ y ys, f x = some y ∧ optMapM f xs = some ys ∧ r = y :: ys := by
  rw [optMapM]
  simp only [Option.bind_eq_bind]
  cases hx : f x with
  | none => simp
  | some y =>
    simp only [Option.some_bind]
    cases hxs : optMapM f xs with
    | none => simp
    | some ys =>
      simp only [Option.some_bind, Option.pure_def, Option.some.injEq]
      constructor
      · rintro rfl
        exact ⟨y, ys, rfl, rfl, rfl⟩
      · rintro ⟨y', ys', hy', hys', rfl⟩
        cases hy'
        cases hys'
        rfl

lemma wordAt_eq_some (toks : List Token) (i : Nat) (w : String) :
    wordAt toks i = some w ↔ ∃ t, tokAt toks i = some t ∧ w = t.word := by
  unfold wordAt
  cases h : tokAt toks i with
  | none => simp
  | some t =>
    simp only [Option.map_some, Option.some.injEq]
    constructor
    · rintro rfl
      exact ⟨t, rfl, rfl⟩
    · rintro ⟨t', ht', rfl⟩
      cases ht'
      rfl

lemma mapM_words_shift (toks : List Token) :
    ∀ (pr : List Nat) (ws : List String),
      optMapM (wordAt toks) pr = some ws →
      wordsAt0 toks (pr.map (fun (i : Nat) => (i : Int) - 1)) = some ws
  | [], ws, h => by
    simp only [optMapM, Option.some.injEq] at h
    subst h
    simp [wordsAt0, optMapM]
  | i :: pr, ws, h => by
    rw [optMapM_cons_eq_some] at h
    obtain ⟨w, ws', hw, hrest, rfl⟩ := h
    obtain ⟨t, hti, rfl⟩ := (wordAt_eq_some toks i w).mp hw
    have h1i : 1 ≤ i := by
      by_contra hlt
      simp [tokAt, hlt] at hti
    have ht0 : wordAt0 toks ((i : Int) - 1) = some t.word := by
      unfold wordAt0 tokAt0
      have h0 : (0 : Int) ≤ (i : Int) - 1 := by omega
      rw [if_pos h0]
      have htn : ((i : Int) - 1).toNat = i - 1 := by omega
      rw [htn]
      unfold tokAt at hti
      rw [if_pos h1i] at hti
      rw [hti]
      rfl
    have hws' := mapM_words_shift toks pr ws' hrest
    unfold wordsAt0 at hws' ⊢
    rw [List.map_cons, optMapM_cons_eq_some]
    exact ⟨t.word, ws', ht0, hws', rfl⟩

lemma resolveCase_words (toks : List Token) (es : List DepEdge) (nmod : String) :
    ∀ (cl : List Nat) (pr : List Nat),
      resolveCase toks es nmod cl = some (some pr) →
      ∃ ws, optMapM (wordAt toks) pr = some ws ∧
        joinUnderscore ws = nmod ∧ pr ≠ [] ∧ ws ≠ []
  | [], pr, h => by simp [resolveCase] at h
  | c :: cs, pr, h => by
    rw [resolveCase] at h
    simp only [Option.bind_eq_bind] at h
    cases hct : tokAt toks c with
    | none => rw [hct] at h; cases h
    | some ct =>
      rw [hct] at h
      simp only [Option.some_bind] at h
      by_cases hm : (depList es "mwe" c).isEmpty
      · rw [if_pos hm] at h
        by_cases hw : (ct.word == nmod) = true
        · rw [if_pos hw] at h
          simp only [Option.some.injEq] at h
          subst h
          refine ⟨[ct.word], ?_, ?_, by simp, by simp⟩
          · rw [optMapM_cons_eq_some]
            exact ⟨ct.word, [], (wordAt_eq_some toks c ct.word).mpr ⟨ct, hct, rfl⟩,
              rfl, rfl⟩
          · rw [joinUnderscore_singleton]
            exact beq_iff_eq.mp hw
        · rw [if_neg hw] at h
          exact resolveCase_words toks es nmod cs pr h
      · rw [if_neg hm] at h
        cases hws : optMapM (wordAt toks) (c :: depList es "mwe" c) with
        | none => rw [hws] at h; cases h
        | some ws0 =>
          rw [hws] at h
          simp only [Option.some_bind] at h
          by_cases hw : (joinUnderscore ws0 == nmod) = true
          · rw [if_pos hw] at h
            simp only [Option.some.injEq] at h
            subst h
            refine ⟨ws0, hws, beq_iff_eq.mp hw, by simp, ?_⟩
            intro hnil
            subst hnil
            rw [optMapM_cons_eq_some] at hws
            obtain ⟨y, ys, _, _, hcons⟩ := hws
            cases hcons
          · rw [if_neg hw] at h
            exact resolveCase_words toks es nmod cs pr h

lemma resolveCase_subset (toks : List Token) (es : List DepEdge) (nmod : String) :
    ∀ (cl : List Nat) (pr : List Nat),
      resolveCase toks es nmod cl = some (some pr) →
      ∀ i ∈ pr, i ∈ cl ∨ ∃ c ∈ cl, i ∈ depList es "mwe" c
  | [], pr, h => by simp [resolveCase] at h
  | c :: cs, pr, h => by
    rw [resolveCase] at h
    simp only [Option.bind_eq_bind] at h
    cases hct : tokAt toks c with
    | none => rw [hct] at h; cases h
    | some ct =>
      rw [hct] at h
      simp only [Option.some_bind] at h
      by_cases hm : (depList es "mwe" c).isEmpty
      · rw [if_pos hm] at h
        by_cases hw : (ct.word == nmod) = true
        · rw [if_pos hw] at h
          simp only [Option.some.injEq] at h
          subst h
          intro i hi
          rw [List.mem_singleton] at hi
          subst hi
          exact Or.inl (List.mem_cons_self i cs)
        · rw [if_neg hw] at h
          intro i hi
          rcases resolveCase_subset toks es nmod cs pr h i hi with h' | ⟨c', hc', hi'⟩
          · exact Or.inl (List.mem_cons_of_mem c h')
          · exact Or.inr ⟨c', List.mem_cons_of_mem c hc', hi'⟩
      · rw [if_neg hm] at h
        cases hws : optMapM (wordAt toks) (c :: depList es "mwe" c) with
        | none => rw [hws] at h; cases h
        | some ws0 =>
          rw [hws] at h
          simp only [Option.some_bind] at h
          by_cases hw : (joinUnderscore ws0 == nmod) = true
          · rw [if_pos hw] at h
            simp only [Option.some.injEq] at h
            subst h
            intro i hi
            rcases List.mem_cons.mp hi with rfl | hi'
            · exact Or.inl (List.mem_cons_self i cs)
            · exact Or.inr ⟨c, List.mem_cons_self c cs, hi'⟩
          · rw [if_neg hw] at h
            intro i hi
            rcases resolveCase_subset toks es nmod cs pr h i hi with h' | ⟨c', hc', hi'⟩
            · exact Or.inl (List.mem_cons_of_mem c h')
            · exact Or.inr ⟨c', List.mem_cons_of_mem c hc', hi'⟩

lemma resolveCase_isSome (toks : List Token) (es : List DepEdge) (nmod : String) :
    ∀ cl : List Nat,
      (∀ c ∈ cl, (tokAt toks c).isSome ∧
        ∀ i ∈ depList es "mwe" c, (tokAt toks i).isSome) →
      (resolveCase toks es nmod cl).isSome
  | [], _ => by simp [resolveCase]
  | c :: cs, h => by
    obtain ⟨hc, hmwe⟩ := h c (List.mem_cons_self c cs)
    obtain ⟨ct, hct⟩ := Option.isSome_iff_exists.mp hc
    rw [resolveCase]
    simp only [Option.bind_eq_bind, hct, Option.some_bind]
    by_cases hm : (depList es "mwe" c).isEmpty
    · rw [if_pos hm]
      by_cases hw : (ct.word == nmod) = true
      · rw [if_pos hw]; simp
      · rw [if_neg hw]
        exact resolveCase_isSome toks es nmod cs
          (fun c' hc' => h c' (List.mem_cons_of_mem c hc'))
    · rw [if_neg hm]
      have hmap : (optMapM (wordAt toks) (c :: depList es "mwe" c)).isSome := by
        apply mapM_option_isSome
        intro x hx
        rcases List.mem_cons.mp hx with rfl | hx'
        · simp [wordAt, hct]
        · obtain ⟨t, ht⟩ := Option.isSome_iff_exists.mp (hmwe x hx')
          simp [wordAt, ht]
      obtain ⟨ws0, hws0⟩ := Option.isSome_iff_exists.mp hmap
      rw [hws0]
      simp only [Option.some_bind]
      by_cases hw : (joinUnderscore ws0 == nmod) = true
      · rw [if_pos hw]; simp
      · rw [if_neg hw]
        exact resolveCase_isSome toks es nmod cs
          (fun c' hc' => h c' (List.mem_cons_of_mem c hc'))

lemma perEdgeNmod_mem_spec (toks : List Token) (es : List DepEdge) (e : DepEdge)
    (l : List PreRel) (h : perEdgeNmod toks es e = some l)
    (r0 : PreRel) (hr : r0 ∈ l) :
    strStartsWith e.dep "nmod:" = true ∧
    strDrop e.dep 5 ∉ excludeList ∧
    r0.2.2 = e.target ∧
    ∃ pr st,
      resolveCase toks es (strDrop e.dep 5) (depList es "case" e.target) =
        some (some pr) ∧
      tokAt toks e.source = some st ∧
      (r0.2.1 = pr ∨ r0.2.1 = e.source :: pr) ∧
      (r0.1 = e.source ∨ r0.1 ∈ depList es "acl" e.source ∨
        r0.1 ∈ depList es "nsubj" e.source) := by
  rw [perEdgeNmod] at h
  by_cases hsw : strStartsWith e.dep "nmod:" = true
  case neg =>
    rw [if_pos hsw] at h
    simp only [Option.some.injEq] at h
    subst h
    simp at hr
  rw [if_neg (not_not_intro hsw)] at h
  by_cases hex : strDrop e.dep 5 ∈ excludeList
  case pos =>
    rw [if_pos hex] at h
    simp only [Option.some.injEq] at h
    subst h
    simp at hr
  rw [if_neg hex] at h
  simp only [Option.bind_eq_bind] at h
  cases htt : tokAt toks e.target with
  | none => rw [htt] at h; cases h
  | some tt =>
    rw [htt] at h
    simp only [Option.some_bind] at h
    by_cases htn : strStartsWith tt.pos "NN" = true
    case neg =>
      rw [if_pos htn] at h
      simp only [Option.pure_def, Option.some.injEq] at h
      subst h
      simp at hr
    rw [if_neg (not_not_intro htn)] at h
    by_cases hce : (depList es "case" e.target).isEmpty
    case pos =>
      rw [if_pos hce] at h
      simp only [Option.pure_def, Option.some.injEq] at h
      subst h
      simp at hr
    rw [if_neg hce] at h
    cases hres : resolveCase toks es (strDrop e.dep 5)
        (depList es "case" e.target) with
    | none => rw [hres] at h; cases h
    | some found =>
      rw [hres] at h
      simp only [Option.some_bind] at h
      cases found with
      | none =>
        simp only [Option.pure_def, Option.some.injEq] at h
        subst h
        simp at hr
      | some pr =>
        cases hst : tokAt toks e.source with
        | none => rw [hst] at h; cases h
        | some st =>
          rw [hst] at h
          simp only [Option.some_bind] at h
          by_cases hstn : strStartsWith st.pos "NN" = true
          case pos =>
            rw [if_pos hstn] at h
            simp only [Option.pure_def, Option.some.injEq] at h
            subst h
            rw [List.mem_singleton] at hr
            subst hr
            exact ⟨hsw, hex, rfl, pr, st, rfl, rfl, Or.inl rfl, Or.inl rfl⟩
          rw [if_neg hstn] at h
          by_cases hacl : (depList es "acl" e.source).isEmpty
          case neg =>
            rw [if_pos hacl] at h
            simp only [Option.pure_def, Option.some.injEq] at h
            subst h
            rw [List.mem_map] at hr
            obtain ⟨sj, hsj, rfl⟩ := hr
            refine ⟨hsw, hex, rfl, pr, st, rfl, rfl, ?_, Or.inr (Or.inl hsj)⟩
            by_cases hpp : (e.source + 1 == pr.headD 0) = true
            · rw [if_pos hpp]
              exact Or.inr rfl
            · rw [if_neg hpp]
              exact Or.inl rfl
          rw [if_neg (not_not_intro hacl)] at h
          by_cases hns : (depList es "nsubj" e.source).isEmpty
          case neg =>
            rw [if_pos hns] at h
            simp only [Option.pure_def, Option.some.injEq] at h
            subst h
            rw [List.mem_map] at hr
            obtain ⟨sj, hsj, rfl⟩ := hr
            refine ⟨hsw, hex, rfl, pr, st, rfl, rfl, ?_,
              Or.inr (Or.inr hsj)⟩
            by_cases hpp : (e.source + 1 == pr.headD 0) = true
            · rw [if_pos hpp]
              exact Or.inr rfl
            · rw [if_neg hpp]
              exact Or.inl rfl
          rw [if_neg (not_not_intro hns)] at h
          simp only [Option.pure_def, Option.some.injEq] at h
          subst h
          simp at hr

lemma perEdgeNmod_isSome (toks : List Token) (es : List DepEdge) (e : DepEdge)
    (htt : (tokAt toks e.target).isSome)
    (hst : (tokAt toks e.source).isSome)
    (hcase : ∀ c ∈ depList es "case" e.target, (tokAt toks c).isSome ∧
      ∀ i ∈ depList es "mwe" c, (tokAt toks i).isSome) :
    (perEdgeNmod toks es e).isSome := by
  rw [perEdgeNmod]
  by_cases hsw : strStartsWith e.dep "nmod:" = true
  case neg => rw [if_pos hsw]; simp
  rw [if_neg (not_not_intro hsw)]
  by_cases hex : strDrop e.dep 5 ∈ excludeList
  case pos => rw [if_pos hex]; simp
  rw [if_neg hex]
  obtain ⟨tt, htt'⟩ := Option.isSome_iff_exists.mp htt
  simp only [Option.bind_eq_bind, htt', Option.some_bind]
  by_cases htn : strStartsWith tt.pos "NN" = true
  case neg => rw [if_pos htn]; simp
  rw [if_neg (not_not_intro htn)]
  by_cases hce : (depList es "case" e.target).isEmpty
  case pos => rw [if_pos hce]; simp
  rw [if_neg hce]
  obtain ⟨found, hres⟩ := Option.isSome_iff_exists.mp
    (resolveCase_isSome toks es (strDrop e.dep 5) _ hcase)
  rw [hres]
  simp only [Option.some_bind]
  cases found with
  | none => simp
  | some pr =>
    obtain ⟨st, hst'⟩ := Option.isSome_iff_exists.mp hst
    simp only [hst', Option.some_bind]
    by_cases hstn : strStartsWith st.pos "NN" = true
    case pos => rw [if_pos hstn]; simp
    rw [if_neg hstn]
    by_cases hacl : (depList es "acl" e.source).isEmpty
    case neg => rw [if_pos hacl]; simp
    rw [if_neg (not_not_intro hacl)]
    by_cases hns : (depList es "nsubj" e.source).isEmpty
    case neg => rw [if_pos hns]; simp
    rw [if_neg (not_not_intro hns)]
    simp

lemma tokAt_isSome_of_bound (toks : List Token) (i : Nat)
    (h1 : 1 ≤ i) (h2 : i ≤ toks.length) : (tokAt toks i).isSome := by
  unfold tokAt
  rw [if_pos h1]
  have hlt : i - 1 < toks.length := by omega
  rw [List.getElem?_eq_getElem hlt]
  rfl

lemma depList_mem_bound (s : Sentence) (h : WellFormed s) (d : String) (k : Nat)
    (x : Nat) (hx : x ∈ depList s.edge d k) :
    1 ≤ x ∧ x ≤ s.token.length := by
  obtain ⟨e, he, _, _, rfl⟩ := (mem_depList s.edge d k x).mp hx
  obtain ⟨hs, ht⟩ := h e he
  unfold effTgt
  by_cases hd : (e.dep == "acl") = true
  · rw [if_pos hd]; exact hs
  · rw [if_neg hd]; exact ht

/-- Claim C10: under the precondition that every edge endpoint lies in
`1..n`, no stage of extraction accesses the token list out of bounds: the
`Option`-valued embedding of every stage returns `some`. -/
theorem extraction_no_out_of_bounds (s : Sentence) (h : WellFormed s) :
    (extract_by_nmod s).isSome ∧ (extractSentence s).isSome := by
  have hloop : (nmodLoop s.token s.edge s.edge).isSome := by
    apply isSome_nmodLoop
    intro e he
    obtain ⟨⟨hs1, hs2⟩, ht1, ht2⟩ := h e he
    apply perEdgeNmod_isSome
    · exact tokAt_isSome_of_bound s.token e.target ht1 ht2
    · exact tokAt_isSome_of_bound s.token e.source hs1 hs2
    · intro c hc
      obtain ⟨hc1, hc2⟩ := depList_mem_bound s h "case" e.target c hc
      refine ⟨tokAt_isSome_of_bound s.token c hc1 hc2, ?_⟩
      intro i hi
      obtain ⟨hi1, hi2⟩ := depList_mem_bound s h "mwe" c i hi
      exact tokAt_isSome_of_bound s.token i hi1 hi2
  obtain ⟨pre, hpre⟩ := Option.isSome_iff_exists.mp hloop
  have hnm : extract_by_nmod s = some (expandRelations s.edge pre) := by
    rw [extract_by_nmod_eq_some]
    exact ⟨pre, hpre, rfl⟩
  constructor
  · rw [hnm]; rfl
  · unfold extractSentence
    rw [hnm]
    rfl

/-- Witness for C10 on a concrete well-formed sentence. -/
theorem extraction_no_out_of_bounds_witness :
    (extract_by_nmod ⟨[⟨"He", "PRP"⟩, ⟨"looked", "VBD"⟩, ⟨"at", "IN"⟩,
        ⟨"stars", "NNS"⟩],
      [⟨2, 1, "nsubj"⟩, ⟨4, 3, "case"⟩, ⟨2, 4, "nmod:at"⟩]⟩).isSome ∧
    (extractSentence ⟨[⟨"He", "PRP"⟩, ⟨"looked", "VBD"⟩, ⟨"at", "IN"⟩,
        ⟨"stars", "NNS"⟩],
      [⟨2, 1, "nsubj"⟩, ⟨4, 3, "case"⟩, ⟨2, 4, "nmod:at"⟩]⟩).isSome :=
  extraction_no_out_of_bounds
    ⟨[⟨"He", "PRP"⟩, ⟨"looked", "VBD"⟩, ⟨"at", "IN"⟩, ⟨"stars", "NNS"⟩],
      [⟨2, 1, "nsubj"⟩, ⟨4, 3, "case"⟩, ⟨2, 4, "nmod:at"⟩]⟩
    (by unfold WellFormed; decide)

/-! ## Lemmas: index bounds of every stage -/

lemma extract_by_subj_obj_in_range (s : Sentence) (h : WellFormed s) :
    ∀ r ∈ extract_by_subj_obj s, RelInRange s.token.length r := by
  intro r hr
  obtain ⟨p, sj, ob, hs, ho, rfl⟩ := (extract_by_subj_obj_char s r).mp hr
  have hsj : 1 ≤ sj ∧ sj ≤ s.token.length ∧ 1 ≤ p ∧ p ≤ s.token.length := by
    rcases hs with ⟨e, he, _, hp, ht⟩ | ⟨e, he, _, hp, ht⟩ <;>
      obtain ⟨⟨h1, h2⟩, h3, h4⟩ := h e he <;> subst hp <;> subst ht <;>
        exact ⟨by omega, by omega, by omega, by omega⟩
  have hob : 1 ≤ ob ∧ ob ≤ s.token.length := by
    rcases ho with ⟨e, he, _, hp, ht⟩ | ⟨e, he, _, hp, ht⟩ <;>
      obtain ⟨⟨h1, h2⟩, h3, h4⟩ := h e he <;> subst ht <;>
        exact ⟨by omega, by omega⟩
  obtain ⟨hsj1, hsj2, hp1, hp2⟩ := hsj
  obtain ⟨hob1, hob2⟩ := hob
  unfold RelInRange
  dsimp only
  refine ⟨⟨by omega, by omega⟩, ?_, by omega, by omega⟩
  intro i hi
  rw [List.mem_singleton] at hi
  subst hi
  omega

lemma pre_rel_in_bounds (s : Sentence) (h : WellFormed s)
    (pre : List PreRel) (hpre : nmodLoop s.token s.edge s.edge = some pre)
    (r0 : PreRel) (h0 : r0 ∈ pre) :
    (1 ≤ r0.1 ∧ r0.1 ≤ s.token.length) ∧
    (∀ i ∈ r0.2.1, 1 ≤ i ∧ i ≤ s.token.length) ∧
    (1 ≤ r0.2.2 ∧ r0.2.2 ≤ s.token.length) := by
  obtain ⟨e, he, le, hle, hr0⟩ :=
    (mem_nmodLoop s.token s.edge s.edge pre hpre r0).mp h0
  obtain ⟨hsw, hex, hobt, pr, st, hres, hst, hpred, hsubj⟩ :=
    perEdgeNmod_mem_spec s.token s.edge e le hle r0 hr0
  obtain ⟨⟨hes1, hes2⟩, het1, het2⟩ := h e he
  have hprb : ∀ i ∈ pr, 1 ≤ i ∧ i ≤ s.token.length := by
    intro i hi
    rcases resolveCase_subset s.token s.edge (strDrop e.dep 5) _ pr hres i hi with
      hc | ⟨c, _, hm⟩
    · exact depList_mem_bound s h "case" e.target i hc
    · exact depList_mem_bound s h "mwe" c i hm
  refine ⟨?_, ?_, ?_⟩
  · rcases hsubj with h' | h' | h'
    · rw [h']; exact ⟨hes1, hes2⟩
    · exact depList_mem_bound s h "acl" e.source r0.1 h'
    · exact depList_mem_bound s h "nsubj" e.source r0.1 h'
  · intro i hi
    rcases hpred with h' | h' <;> rw [h'] at hi
    · exact hprb i hi
    · rcases List.mem_cons.mp hi with rfl | hi'
      · exact ⟨hes1, hes2⟩
      · exact hprb i hi'
  · rw [hobt]; exact ⟨het1, het2⟩

lemma extract_by_nmod_in_range (s : Sentence) (h : WellFormed s)
    (out : List RelTriple) (hout : extract_by_nmod s = some out) :
    ∀ r ∈ out, RelInRange s.token.length r := by
  intro r hr
  rw [extract_by_nmod_eq_some] at hout
  obtain ⟨pre, hpre, rfl⟩ := hout
  rw [mem_expandRelations] at hr
  obtain ⟨r0, h0, a, ha, b, hb, rfl⟩ := hr
  obtain ⟨hsb, hpb, hob⟩ := pre_rel_in_bounds s h pre hpre r0 h0
  have hab : 1 ≤ a ∧ a ≤ s.token.length := by
    rcases ha with rfl | ha'
    · exact hsb
    · exact depList_mem_bound s h "conj:and" r0.1 a ha'
  have hbb : 1 ≤ b ∧ b ≤ s.token.length := by
    rcases hb with rfl | hb'
    · exact hob
    · exact depList_mem_bound s h "conj:and" r0.2.2 b hb'
  obtain ⟨ha1, ha2⟩ := hab
  obtain ⟨hb1, hb2⟩ := hbb
  unfold RelInRange
  dsimp only
  refine ⟨⟨by omega, by omega⟩, ?_, by omega, by omega⟩
  intro i hi
  rw [List.mem_map] at hi
  obtain ⟨j, hj, rfl⟩ := hi
  obtain ⟨hj1, hj2⟩ := hpb j hj
  constructor <;> omega

lemma replace_by_of_in_range (s : Sentence) (h : WellFormed s)
    (rels : List RelTriple)
    (hrels : ∀ r ∈ rels, RelInRange s.token.length r) :
    ∀ r ∈ replace_by_of s rels, RelInRange s.token.length r := by
  intro r hr
  rw [mem_replace_by_of] at hr
  obtain ⟨r0, h0, a, ha, b, hb, rfl⟩ := hr
  obtain ⟨h0s, h0p, h0o⟩ := hrels r0 h0
  have hend : ∀ x y : Int, y ∈ substEnds s.edge x →
      (0 ≤ x ∧ x < (s.token.length : Int)) →
      (0 ≤ y ∧ y < (s.token.length : Int)) := by
    intro x y hy hx
    rcases (mem_substEnds_iff s.edge x y).mp hy with ⟨e, he, _, _, rfl⟩ | ⟨_, rfl⟩
    · obtain ⟨⟨_, _⟩, h3, h4⟩ := h e he
      constructor <;> omega
    · exact hx
  exact ⟨hend r0.1 a ha h0s, h0p, hend r0.2.2 b hb h0o⟩

lemma extractSentence_eq_some (s : Sentence) (out : List RelTriple) :
    extractSentence s = some out ↔
      ∃ nm, extract_by_nmod s = some nm ∧
        out = replace_by_of s (extract_by_subj_obj s ++ nm) := by
  unfold extractSentence
  cases h : extract_by_nmod s with
  | none => simp [h]
  | some nm =>
    simp only [h, Option.bind_eq_bind, Option.some_bind, Option.pure_def,
      Option.some.injEq]
    constructor
    · rintro rfl
      exact ⟨nm, rfl, rfl⟩
    · rintro ⟨nm', hnm', rfl⟩
      cases hnm'
      rfl

/-- Claim C8: for a well-formed sentence (all edge endpoints in `1..n`),
every relation in the pipeline's final output has its subject index, every
predicate index and its object index in `0..n-1`, i.e. at a valid 0-based
position of the token list. -/
theorem pipeline_output_indices_valid (s : Sentence) (h : WellFormed s)
    (out : List RelTriple) (hout : extractSentence s = some out) :
    ∀ r ∈ out, RelInRange s.token.length r := by
  rw [extractSentence_eq_some] at hout
  obtain ⟨nm, hnm, rfl⟩ := hout
  apply replace_by_of_in_range s h
  intro r hr
  rcases List.mem_append.mp hr with hr' | hr'
  · exact extract_by_subj_obj_in_range s h r hr'
  · exact extract_by_nmod_in_range s h nm hnm r hr'

/-- Witness for C8 on a concrete well-formed sentence and output relation. -/
theorem pipeline_output_indices_valid_witness :
    RelInRange 4 ((0 : Int), [1, 2], 3) :=
  pipeline_output_indices_valid
    ⟨[⟨"He", "PRP"⟩, ⟨"looked", "VBD"⟩, ⟨"at", "IN"⟩, ⟨"stars", "NNS"⟩],
      [⟨2, 1, "nsubj"⟩, ⟨4, 3, "case"⟩, ⟨2, 4, "nmod:at"⟩]⟩
    (by unfold WellFormed; decide)
    [((0 : Int), [1, 2], 3)] (by rfl) ((0 : Int), [1, 2], 3) (by decide)

/-! ## Lemmas: congruence and skipping in `_extract_by_nmod` -/

lemma mem_depList_plain (es : List DepEdge) (d : String) (k x : Nat)
    (hd : d ≠ "acl") :
    x ∈ depList es d k ↔
      ∃ e ∈ es, e.dep = d ∧ e.source = k ∧ x = e.target := by
  rw [depList_ne_acl es d k hd]
  simp only [List.mem_map, List.mem_filter, Bool.and_eq_true, beq_iff_eq]
  constructor
  · rintro ⟨e, ⟨he, hdep, hk⟩, rfl⟩
    exact ⟨e, he, hdep, hk, rfl⟩
  · rintro ⟨e, he, hdep, hk, rfl⟩
    exact ⟨e, ⟨he, hdep, hk⟩, rfl⟩

lemma dep_ne_of_nmod (dep d : String)
    (h : strStartsWith dep "nmod:" = true)
    (hd : strStartsWith d "nmod:" = false) : dep ≠ d := by
  intro he
  rw [he, hd] at h
  cases h

lemma depList_erase_middle (l1 l2 : List DepEdge) (e : DepEdge) (d : String)
    (hd : e.dep ≠ d) (k : Nat) :
    depList (l1 ++ e :: l2) d k = depList (l1 ++ l2) d k := by
  unfold depList
  rw [List.filter_append, List.filter_append, List.filter_cons]
  have hb : (e.dep == d && effSrc e == k) = false := by simp [hd]
  simp [hb]

lemma perEdgeNmod_congr (toks : List Token) (es1 es2 : List DepEdge)
    (hcase : ∀ k, depList es1 "case" k = depList es2 "case" k)
    (hmwe : ∀ k, depList es1 "mwe" k = depList es2 "mwe" k)
    (hacl : ∀ k, depList es1 "acl" k = depList es2 "acl" k)
    (hns : ∀ k, depList es1 "nsubj" k = depList es2 "nsubj" k)
    (x : DepEdge) :
    perEdgeNmod toks es1 x = perEdgeNmod toks es2 x := by
  have hrc : ∀ (nmod : String) (cl : List Nat),
      resolveCase toks es1 nmod cl = resolveCase toks es2 nmod cl := by
    intro nmod cl
    induction cl with
    | nil => rfl
    | cons c cs ih => rw [resolveCase, resolveCase, hmwe c, ih]
  unfold perEdgeNmod
  simp only [hcase, hrc, hacl, hns]

lemma nmodLoop_congr (toks : List Token) (es1 es2 : List DepEdge)
    (h : ∀ x, perEdgeNmod toks es1 x = perEdgeNmod toks es2 x) :
    ∀ l : List DepEdge, nmodLoop toks es1 l = nmodLoop toks es2 l
  | [] => rfl
  | x :: l => by rw [nmodLoop, nmodLoop, h x, nmodLoop_congr toks es1 es2 h l]

lemma nmodLoop_skip_middle (toks : List Token) (es : List DepEdge) (e : DepEdge)
    (he : perEdgeNmod toks es e = some []) :
    ∀ l1 l2 : List DepEdge,
      nmodLoop toks es (l1 ++ e :: l2) = nmodLoop toks es (l1 ++ l2)
  | [], l2 => by
    rw [List.nil_append, List.nil_append, nmodLoop, he]
    cases h2 : nmodLoop toks es l2 <;> simp [h2]
  | x :: l1, l2 => by
    rw [List.cons_append, List.cons_append, nmodLoop, nmodLoop,
      nmodLoop_skip_middle toks es e he l1 l2]

lemma expandRelations_congr (es1 es2 : List DepEdge)
    (h : ∀ k, depList es1 "conj:and" k = depList es2 "conj:and" k)
    (rels : List PreRel) :
    expandRelations es1 rels = expandRelations es2 rels := by
  unfold expandRelations
  have hf : (fun (r : PreRel) =>
      (r.1 :: depList es1 "conj:and" r.1).flatMap (fun (a : Nat) =>
        (r.2.2 :: depList es1 "conj:and" r.2.2).map (fun (b : Nat) =>
          ((a : Int) - 1, r.2.1.map (fun (i : Nat) => (i : Int) - 1),
            (b : Int) - 1)))) =
      (fun (r : PreRel) =>
      (r.1 :: depList es2 "conj:and" r.1).flatMap (fun (a : Nat) =>
        (r.2.2 :: depList es2 "conj:and" r.2.2).map (fun (b : Nat) =>
          ((a : Int) - 1, r.2.1.map (fun (i : Nat) => (i : Int) - 1),
            (b : Int) - 1)))) := by
    funext r
    rw [h r.1, h r.2.2]
  rw [hf]

/-- Claim C3: when a matched `nmod:<X>` edge's source token is not tagged as
a noun, subjects come from the `acl` index entry of the source (sources of
`acl` edges with target = source) or, only when that entry is absent, from
its `nsubj` entry (targets of `nsubj` edges with source = source) — first
match wins; the source token is prepended to the recovered preposition
predicate exactly when `source + 1` equals the first recovered preposition
index; one relation per subject found is emitted, all sharing the predicate,
with the edge's target as object. -/
theorem nmod_verb_source_subjects (toks : List Token) (es : List DepEdge)
    (e : DepEdge)
    (hsw : strStartsWith e.dep "nmod:" = true)
    (hex : strDrop e.dep 5 ∉ excludeList)
    (tt : Token) (htt : tokAt toks e.target = some tt)
    (htn : strStartsWith tt.pos "NN" = true)
    (pr : List Nat)
    (hres : resolveCase toks es (strDrop e.dep 5)
        (depList es "case" e.target) = some (some pr))
    (st : Token) (hst : tokAt toks e.source = some st)
    (hsn : ¬ strStartsWith st.pos "NN" = true) :
    perEdgeNmod toks es e =
      some
        ((if (es.filter (fun ed => ed.dep == "acl" && ed.target == e.source)).map
              (fun ed => ed.source) ≠ [] then
            (es.filter (fun ed => ed.dep == "acl" && ed.target == e.source)).map
              (fun ed => ed.source)
          else
            (es.filter (fun ed => ed.dep == "nsubj" && ed.source == e.source)).map
              (fun ed => ed.target)).map
          (fun sj =>
            (sj, if e.source + 1 = pr.headD 0 then e.source :: pr else pr,
              e.target))) := by
  rw [perEdgeNmod]
  rw [if_neg (not_not_intro hsw), if_neg hex]
  simp only [Option.bind_eq_bind, htt, Option.some_bind]
  rw [if_neg (not_not_intro htn)]
  have hce : ¬ (depList es "case" e.target).isEmpty = true := by
    intro hcz
    rw [List.isEmpty_iff] at hcz
    rw [hcz] at hres
    simp [resolveCase] at hres
  rw [if_neg hce, hres]
  simp only [Option.some_bind, hst]
  rw [if_neg hsn]
  rw [depList_acl, depList_ne_acl es "nsubj" e.source (by decide)]
  by_cases hacl :
      (es.filter (fun ed => ed.dep == "acl" && ed.target == e.source)).map
        (fun ed => ed.source) = []
  · rw [if_neg (not_not_intro ((List.isEmpty_iff).mpr hacl)), if_neg (not_not_intro hacl)]
    by_cases hns :
        (es.filter (fun ed => ed.dep == "nsubj" && ed.source == e.source)).map
          (fun ed => ed.target) = []
    · rw [if_neg (not_not_intro ((List.isEmpty_iff).mpr hns)), hns]
      simp
    · rw [if_pos (by simpa [List.isEmpty_iff] using hns)]
      simp only [Option.pure_def, Option.some.injEq]
      apply List.map_congr_left
      intro sj _
      by_cases hpp : e.source + 1 = pr.headD 0
      · rw [if_pos hpp, if_pos (by simpa using hpp)]
      · rw [if_neg hpp, if_neg (by simpa using hpp)]
  · rw [if_pos (by simpa [List.isEmpty_iff] using hacl), if_pos hacl]
    simp only [Option.pure_def, Option.some.injEq]
    apply List.map_congr_left
    intro sj _
    by_cases hpp : e.source + 1 = pr.headD 0
    · rw [if_pos hpp, if_pos (by simpa using hpp)]
    · rw [if_neg hpp, if_neg (by simpa using hpp)]

/-- Witness for C3 on "He looked at stars": the `nmod:at` edge has the
verb-like source "looked", subject "He" is found via `nsubj`, and the verb
is prepended to the predicate. -/
theorem nmod_verb_source_subjects_witness :
    perEdgeNmod
      [⟨"He", "PRP"⟩, ⟨"looked", "VBD"⟩, ⟨"at", "IN"⟩, ⟨"stars", "NNS"⟩]
      [⟨2, 1, "nsubj"⟩, ⟨4, 3, "case"⟩, ⟨2, 4, "nmod:at"⟩]
      ⟨2, 4, "nmod:at"⟩ =
      some
        ((if ([⟨2, 1, "nsubj"⟩, ⟨4, 3, "case"⟩,
              (⟨2, 4, "nmod:at"⟩ : DepEdge)].filter
                (fun ed => ed.dep == "acl" && ed.target == 2)).map
              (fun ed => ed.source) ≠ [] then
            ([⟨2, 1, "nsubj"⟩, ⟨4, 3, "case"⟩,
              (⟨2, 4, "nmod:at"⟩ : DepEdge)].filter
                (fun ed => ed.dep == "acl" && ed.target == 2)).map
              (fun ed => ed.source)
          else
            ([⟨2, 1, "nsubj"⟩, ⟨4, 3, "case"⟩,
              (⟨2, 4, "nmod:at"⟩ : DepEdge)].filter
                (fun ed => ed.dep == "nsubj" && ed.source == 2)).map
              (fun ed => ed.target)).map
          (fun sj => (sj, if 2 + 1 = ([3] : List Nat).headD 0 then 2 :: [3]
            else [3], 4))) :=
  nmod_verb_source_subjects
    [⟨"He", "PRP"⟩, ⟨"looked", "VBD"⟩, ⟨"at", "IN"⟩, ⟨"stars", "NNS"⟩]
    [⟨2, 1, "nsubj"⟩, ⟨4, 3, "case"⟩, ⟨2, 4, "nmod:at"⟩]
    ⟨2, 4, "nmod:at"⟩ (by decide) (by decide) ⟨"stars", "NNS"⟩ (by decide)
    (by decide) [3] (by decide) ⟨"looked", "VBD"⟩ (by decide) (by decide)

/-- Claim C6: when no `case` token of an `nmod:<X>` edge's target resolves
(directly or via its `mwe` chain) to a word equal to `<X>`, that edge
contributes no relations and is silently skipped: its per-edge result is
`some []` (no error), and the extractor's result on the sentence equals its
result with that edge removed. -/
theorem nmod_unresolved_prep_skipped (toks : List Token)
    (l1 l2 : List DepEdge) (e : DepEdge)
    (hsw : strStartsWith e.dep "nmod:" = true)
    (htt : (tokAt toks e.target).isSome)
    (hres : resolveCase toks (l1 ++ e :: l2) (strDrop e.dep 5)
        (depList (l1 ++ e :: l2) "case" e.target) = some none) :
    perEdgeNmod toks (l1 ++ e :: l2) e = some [] ∧
    extract_by_nmod ⟨toks, l1 ++ e :: l2⟩ = extract_by_nmod ⟨toks, l1 ++ l2⟩ := by
  have hskip : perEdgeNmod toks (l1 ++ e :: l2) e = some [] := by
    rw [perEdgeNmod]
    rw [if_neg (not_not_intro hsw)]
    by_cases hex : strDrop e.dep 5 ∈ excludeList
    · rw [if_pos hex]
    · rw [if_neg hex]
      obtain ⟨tt, htt'⟩ := Option.isSome_iff_exists.mp htt
      simp only [Option.bind_eq_bind, htt', Option.some_bind]
      by_cases htn : strStartsWith tt.pos "NN" = true
      · rw [if_neg (not_not_intro htn)]
        by_cases hce : (depList (l1 ++ e :: l2) "case" e.target).isEmpty
        · rw [if_pos hce]
          rfl
        · rw [if_neg hce, hres]
          rfl
      · rw [if_pos htn]
        rfl
  have hdeps : ∀ d : String, strStartsWith d "nmod:" = false →
      ∀ k, depList (l1 ++ e :: l2) d k = depList (l1 ++ l2) d k := by
    intro d hd k
    exact depList_erase_middle l1 l2 e d (dep_ne_of_nmod e.dep d hsw hd) k
  have hper : ∀ x, perEdgeNmod toks (l1 ++ e :: l2) x =
      perEdgeNmod toks (l1 ++ l2) x :=
    perEdgeNmod_congr toks _ _ (hdeps "case" (by decide))
      (hdeps "mwe" (by decide)) (hdeps "acl" (by decide))
      (hdeps "nsubj" (by decide))
  refine ⟨hskip, ?_⟩
  unfold extract_by_nmod
  rw [show (Sentence.mk toks (l1 ++ e :: l2)).edge = l1 ++ e :: l2 from rfl]
  rw [show (Sentence.mk toks (l1 ++ l2)).edge = l1 ++ l2 from rfl]
  rw [nmodLoop_skip_middle toks (l1 ++ e :: l2) e hskip l1 l2]
  rw [nmodLoop_congr toks (l1 ++ e :: l2) (l1 ++ l2) hper (l1 ++ l2)]
  have hexp : ∀ pre, expandRelations (l1 ++ e :: l2) pre =
      expandRelations (l1 ++ l2) pre :=
    fun pre => expandRelations_congr _ _ (hdeps "conj:and" (by decide)) pre
  cases nmodLoop toks (l1 ++ l2) (l1 ++ l2) with
  | none => rfl
  | some pre =>
    simp only [Option.bind_eq_bind, Option.some_bind, hexp pre]

/-- Witness for C6: "The book is on the table" pattern where the `nmod:on`
edge's target "table" has a `case` dependent "under" that does not match
"on", so the edge is skipped. -/
theorem nmod_unresolved_prep_skipped_witness :
    perEdgeNmod
      [⟨"book", "NN"⟩, ⟨"is", "VBZ"⟩, ⟨"under", "IN"⟩, ⟨"table", "NN"⟩]
      ([⟨4, 3, "case"⟩] ++ ⟨2, 4, "nmod:on"⟩ :: []) ⟨2, 4, "nmod:on"⟩ =
      some [] ∧
    extract_by_nmod
      ⟨[⟨"book", "NN"⟩, ⟨"is", "VBZ"⟩, ⟨"under", "IN"⟩, ⟨"table", "NN"⟩],
        [⟨4, 3, "case"⟩] ++ ⟨2, 4, "nmod:on"⟩ :: []⟩ =
    extract_by_nmod
      ⟨[⟨"book", "NN"⟩, ⟨"is", "VBZ"⟩, ⟨"under", "IN"⟩, ⟨"table", "NN"⟩],
        [⟨4, 3, "case"⟩] ++ []⟩ :=
  nmod_unresolved_prep_skipped
    [⟨"book", "NN"⟩, ⟨"is", "VBZ"⟩, ⟨"under", "IN"⟩, ⟨"table", "NN"⟩]
    [⟨4, 3, "case"⟩] [] ⟨2, 4, "nmod:on"⟩ (by decide) (by decide) (by decide)

/-- Claim C5: the prepositional extractor produces no relation from an
`nmod:of` or `nmod:for` edge (their per-edge result is `some []`), and no
relation in its output has a predicate whose token sequence resolves
(underscore-joined words) to the literal preposition "of" or "for". -/
theorem nmod_excludes_of_for (s : Sentence) (out : List RelTriple)
    (hout : extract_by_nmod s = some out) :
    (∀ e ∈ s.edge, e.dep = "nmod:of" ∨ e.dep = "nmod:for" →
      perEdgeNmod s.token s.edge e = some []) ∧
    (∀ r ∈ out, ∀ ws, wordsAt0 s.token r.2.1 = some ws →
      joinUnderscore ws ≠ "of" ∧ joinUnderscore ws ≠ "for") := by
  constructor
  · rintro e _ (hdep | hdep) <;>
    · rw [perEdgeNmod, hdep]
      rw [if_neg (not_not_intro (by decide)), if_pos (by decide)]
  · intro r hr ws hws
    rw [extract_by_nmod_eq_some] at hout
    obtain ⟨pre, hpre, rfl⟩ := hout
    rw [mem_expandRelations] at hr
    obtain ⟨r0, h0, a, _, b, _, rfl⟩ := hr
    obtain ⟨e, he, le, hle, hr0⟩ :=
      (mem_nmodLoop s.token s.edge s.edge pre hpre r0).mp h0
    obtain ⟨hsw, hex, _, pr, st, hres, hst, hpred, _⟩ :=
      perEdgeNmod_mem_spec s.token s.edge e le hle r0 hr0
    obtain ⟨ws1, hws1, hjoin, hprne, hws1ne⟩ :=
      resolveCase_words s.token s.edge (strDrop e.dep 5) _ pr hres
    have hexc : strDrop e.dep 5 ≠ "of" ∧ strDrop e.dep 5 ≠ "for" := by
      simp only [excludeList, List.mem_cons, List.mem_singleton] at hex
      push_neg at hex
      simpa using hex
    rcases hpred with hp | hp
    · have hsh := mapM_words_shift s.token pr ws1 hws1
      rw [← hp] at hsh
      dsimp only at hws
      rw [hsh] at hws
      injection hws with hws'
      subst hws'
      rw [hjoin]
      exact hexc
    · have hsrcw : wordAt s.token e.source = some st.word := by
        unfold wordAt
        rw [hst]
        rfl
      have hcons : optMapM (wordAt s.token) (e.source :: pr) =
          some (st.word :: ws1) := by
        rw [optMapM_cons_eq_some]
        exact ⟨st.word, ws1, hsrcw, hws1, rfl⟩
      have hsh := mapM_words_shift s.token (e.source :: pr) (st.word :: ws1)
        hcons
      rw [← hp] at hsh
      dsimp only at hws
      rw [hsh] at hws
      injection hws with hws'
      subst hws'
      rw [joinUnderscore_cons st.word ws1 hws1ne, hjoin]
      exact ⟨append_underscore_ne _ _ _ (by decide),
        append_underscore_ne _ _ _ (by decide)⟩

/-- Witness for C5 on "He looked at stars". -/
theorem nmod_excludes_of_for_witness :
    (∀ e ∈ ([⟨2, 1, "nsubj"⟩, ⟨4, 3, "case"⟩,
        (⟨2, 4, "nmod:at"⟩ : DepEdge)] : List DepEdge),
      e.dep = "nmod:of" ∨ e.dep = "nmod:for" →
      perEdgeNmod
        [⟨"He", "PRP"⟩, ⟨"looked", "VBD"⟩, ⟨"at", "IN"⟩, ⟨"stars", "NNS"⟩]
        [⟨2, 1, "nsubj"⟩, ⟨4, 3, "case"⟩, ⟨2, 4, "nmod:at"⟩] e = some []) ∧
    (∀ r ∈ ([((0 : Int), [1, 2], 3)] : List RelTriple), ∀ ws,
      wordsAt0
        [⟨"He", "PRP"⟩, ⟨"looked", "VBD"⟩, ⟨"at", "IN"⟩, ⟨"stars", "NNS"⟩]
        r.2.1 = some ws →
      joinUnderscore ws ≠ "of" ∧ joinUnderscore ws ≠ "for") :=
  nmod_excludes_of_for
    ⟨[⟨"He", "PRP"⟩, ⟨"looked", "VBD"⟩, ⟨"at", "IN"⟩, ⟨"stars", "NNS"⟩],
      [⟨2, 1, "nsubj"⟩, ⟨4, 3, "case"⟩, ⟨2, 4, "nmod:at"⟩]⟩
    [((0 : Int), [1, 2], 3)] (by rfl)

/-- Claim C4: for every relation produced by the prepositional extractor
before expansion, the extractor's final output contains the full cross
product of the subject together with its `conj:and` dependents and the
object together with its `conj:and` dependents, all sharing the same
predicate, with all indices converted to 0-based; a relation without
coordinated endpoints passes through as its own 0-based conversion (the
`a = subject`, `b = object` instance). -/
theorem nmod_conj_expansion (s : Sentence)
    (pre : List PreRel) (hpre : nmodLoop s.token s.edge s.edge = some pre)
    (out : List RelTriple) (hout : extract_by_nmod s = some out)
    (r0 : PreRel) (h0 : r0 ∈ pre)
    (a : Nat)
    (ha : a = r0.1 ∨
      ∃ e ∈ s.edge, e.dep = "conj:and" ∧ e.source = r0.1 ∧ a = e.target)
    (b : Nat)
    (hb : b = r0.2.2 ∨
      ∃ e ∈ s.edge, e.dep = "conj:and" ∧ e.source = r0.2.2 ∧ b = e.target) :
    ((a : Int) - 1, r0.2.1.map (fun (i : Nat) => (i : Int) - 1),
      (b : Int) - 1) ∈ out := by
  rw [extract_by_nmod_eq_some] at hout
  obtain ⟨pre', hpre', rfl⟩ := hout
  rw [hpre] at hpre'
  injection hpre' with hpre''
  subst hpre''
  rw [mem_expandRelations]
  refine ⟨r0, h0, a, ?_, b, ?_, rfl⟩
  · rcases ha with rfl | hmem
    · exact Or.inl rfl
    · exact Or.inr ((mem_depList_plain s.edge "conj:and" r0.1 a
        (by decide)).mpr hmem)
  · rcases hb with rfl | hmem
    · exact Or.inl rfl
    · exact Or.inr ((mem_depList_plain s.edge "conj:and" r0.2.2 b
        (by decide)).mpr hmem)

/-- Witness for C4 on "box and bag on table": the coordinated subject "bag"
yields the extra relation. -/
theorem nmod_conj_expansion_witness :
    ((3 : Int) - 1, ([4] : List Nat).map (fun (i : Nat) => (i : Int) - 1),
      (5 : Int) - 1) ∈
      [((0 : Int), [3], 4), ((2 : Int), [3], 4)] :=
  nmod_conj_expansion
    ⟨[⟨"box", "NN"⟩, ⟨"and", "CC"⟩, ⟨"bag", "NN"⟩, ⟨"on", "IN"⟩,
        ⟨"table", "NN"⟩],
      [⟨1, 3, "conj:and"⟩, ⟨5, 4, "case"⟩, ⟨1, 5, "nmod:on"⟩]⟩
    [(1, [4], 5)] (by rfl)
    [((0 : Int), [3], 4), ((2 : Int), [3], 4)] (by rfl)
    (1, [4], 5) (by decide)
    3 (Or.inr ⟨⟨1, 3, "conj:and"⟩, by decide, by decide, by decide, by decide⟩)
    5 (Or.inl (by decide))

end RelationExtraction
